import Mathlib

/-!
Verification of the `cp` transfer engine of s3cli-mini.

This file contains a shallow embedding of the parts of the `cp` command
(package `cmd/internal/cp`: `cp.go`, `upload.go`, and the copy pipeline)
that the specification talks about, together with theorems settling the
spec claims against that embedding.

Modelling conventions:
- byte payloads are abstracted to their sizes (`Nat`); no claim under
  consideration depends on byte values, only on byte counts and offsets;
- Go strings are Lean `String` or `List Char` (for the path parser);
- the per-object goroutine structure of the engine is sequentialised:
  everything the scheduler or the store may decide (semaphore acquisition
  results, API success or failure, the arrival order of completed parts,
  whether the working context is cancelled by the time the completion
  barrier falls) is a parameter of the trace functions, so theorems
  quantify over all schedules;
- `int64` sizes are `Nat` (all sizes handled by the engine are
  non-negative; Go's `totalSize - readerPos` never underflows on the
  paths modelled here, so truncated subtraction agrees with Go).
-/

namespace S3cliMini

/-- Chunk size for multipart transfers, `copyChunkBytes` in `cp.go`:
5 MiB. -/
def copyChunkBytes : Nat := 5 * 1024 * 1024

/-- Maximum object size in a single atomic copy, `maxCopyObjectBytes` in
`cp.go`: 5 GiB. -/
def maxCopyObjectBytes : Nat := 5 * 1024 * 1024 * 1024

/-! ### Path parser (`parsePath` in `cp.go`) -/

/-- The scheme marker `s3://` as a character list. -/
def s3Scheme : List Char := ['s', '3', ':', '/', '/']

/-- Model of Go `strings.TrimPrefix(path, "s3://")`. -/
def trimS3Scheme (p : List Char) : List Char :=
  if p.take 5 = s3Scheme then p.drop 5 else p

/-- Model of `parsePath` in `cp.go`: trim the scheme, then split at the
first slash when its index is positive (`strings.IndexByte` returns the
first occurrence; the Go code checks `idx > 0`). -/
def parsePath (p : List Char) : List Char × List Char :=
  let q := trimS3Scheme p
  match q.findIdx? (· = '/') with
  | some idx => if 0 < idx then (q.take idx, q.drop (idx + 1)) else (q, [])
  | none => (q, [])

/-- Reformulation of claim C10 in the claim's own words: after stripping
the scheme, if the remainder has no slash at all or starts with a slash,
the whole remainder is the bucket and the key is empty; otherwise the
bucket is the prefix before the first slash and the key is the rest. -/
def parsePathSpec (p : List Char) : List Char × List Char :=
  let q := trimS3Scheme p
  if '/' ∉ q then (q, [])
  else if q.head? = some '/' then (q, [])
  else (q.takeWhile (· ≠ '/'), ((q.dropWhile (· ≠ '/')).drop 1))

/-- Splitting part of `parsePath`, on the already-trimmed remainder. -/
def splitBucketKey (q : List Char) : List Char × List Char :=
  match q.findIdx? (· = '/') with
  | some idx => if 0 < idx then (q.take idx, q.drop (idx + 1)) else (q, [])
  | none => (q, [])

/-- Splitting part of `parsePathSpec`. -/
def splitBucketKeySpec (q : List Char) : List Char × List Char :=
  if '/' ∉ q then (q, [])
  else if q.head? = some '/' then (q, [])
  else (q.takeWhile (· ≠ '/'), ((q.dropWhile (· ≠ '/')).drop 1))

theorem parsePath_eq_splitBucketKey (p : List Char) :
    parsePath p = splitBucketKey (trimS3Scheme p) := rfl

theorem parsePathSpec_eq_splitBucketKeySpec (p : List Char) :
    parsePathSpec p = splitBucketKeySpec (trimS3Scheme p) := rfl

theorem findIdx?_slash_eq_none {q : List Char} :
    q.findIdx? (· = '/') = none ↔ '/' ∉ q := by
  rw [List.findIdx?_eq_none_iff]
  constructor
  · intro h hmem
    have := h '/' hmem
    simp at this
  · intro h x hx
    simp only [decide_eq_false_iff_not]
    intro hxeq
    exact h (hxeq ▸ hx)

/-- At the index of the first slash, take and drop agree with takeWhile
and dropWhile on the non-slash predicate. -/
theorem take_drop_of_findIdx?_slash {q : List Char} {j : Nat}
    (h : q.findIdx? (· = '/') = some j) :
    q.take j = q.takeWhile (· ≠ '/') ∧
      q.drop (j + 1) = (q.dropWhile (· ≠ '/')).drop 1 := by
  induction q generalizing j with
  | nil => simp [List.findIdx?] at h
  | cons c t ih =>
    by_cases hc : c = '/'
    · subst hc
      have h0 : j = 0 := by
        rw [List.findIdx?_cons] at h
        simp at h
        omega
      subst h0
      constructor
      · simp [List.takeWhile_cons]
      · simp [List.dropWhile_cons]
    · rw [List.findIdx?_cons] at h
      simp only [hc, decide_False, Nat.zero_add, List.findIdx?_succ] at h
      rcases j with _ | j
      · simp at h
      · obtain ⟨ht, hd⟩ : t.take j = t.takeWhile (· ≠ '/') ∧
            t.drop (j + 1) = (t.dropWhile (· ≠ '/')).drop 1 := by
          cases hji : t.findIdx? (· = '/') with
          | none => rw [hji] at h; simp at h
          | some j' =>
            rw [hji] at h
            simp only [Option.map_some'] at h
            have hj : j' = j := by
              have := Option.some.inj h
              omega
            exact hj ▸ ih hji
        constructor
        · simp only [List.take_succ_cons, List.takeWhile_cons, hc]
          simp [hc, ht]
        · simp only [List.drop_succ_cons, List.dropWhile_cons]
          simp [hc, hd]

theorem splitBucketKey_eq_spec (q : List Char) :
    splitBucketKey q = splitBucketKeySpec q := by
  unfold splitBucketKey splitBucketKeySpec
  cases hfi : q.findIdx? (· = '/') with
  | none =>
    have hnm : '/' ∉ q := findIdx?_slash_eq_none.mp hfi
    rw [if_pos hnm]
  | some j =>
    have hmem : '/' ∈ q := by
      by_contra hnm
      rw [findIdx?_slash_eq_none.mpr hnm] at hfi
      exact Option.noConfusion hfi
    rw [if_neg (by simpa using hmem)]
    rcases j with _ | j
    · -- first slash at position zero: the head is a slash
      have hhead : q.head? = some '/' := by
        cases q with
        | nil => simp at hmem
        | cons c t =>
          rw [List.findIdx?_cons] at hfi
          by_cases hc : c = '/'
          · simp [hc]
          · simp only [hc, decide_False, Nat.zero_add, List.findIdx?_succ] at hfi
            cases hx : t.findIdx? (· = '/') with
            | none => rw [hx] at hfi; simp at hfi
            | some i => rw [hx] at hfi; simp at hfi
      rw [if_pos hhead]
      simp
    · -- first slash at a positive index
      have hhead : ¬ q.head? = some '/' := by
        cases q with
        | nil => simp at hmem
        | cons c t =>
          by_cases hc : c = '/'
          · subst hc
            rw [List.findIdx?_cons] at hfi
            simp at hfi
          · simp [hc]
      rw [if_neg hhead]
      obtain ⟨ht, hd⟩ := take_drop_of_findIdx?_slash hfi
      simp only [Nat.zero_lt_succ, if_true]
      rw [ht, hd]

/-! ### Canned-ACL parsing and the validation prelude of `Run` (`cp.go`) -/

/-- Canned ACL values, `types.ObjectCannedACL` restricted to the cases
`parseACL` can produce. -/
inductive ObjectCannedACL
  | priv
  | publicRead
  | publicReadWrite
  | authenticatedRead
  | awsExecRead
  | bucketOwnerRead
  | bucketOwnerFullControl
deriving DecidableEq, Repr

/-- Model of `parseACL` in `cp.go`: the empty string maps to the empty
ACL (no error); the seven canned names map to their constants; anything
else is an error. A Go switch on strings is an if-chain here. -/
def parseACL (acl : String) : Except String (Option ObjectCannedACL) :=
  if acl = "" then .ok none
  else if acl = "private" then .ok (some .priv)
  else if acl = "public-read" then .ok (some .publicRead)
  else if acl = "public-read-write" then .ok (some .publicReadWrite)
  else if acl = "authenticated-read" then .ok (some .authenticatedRead)
  else if acl = "aws-exec-read" then .ok (some .awsExecRead)
  else if acl = "bucket-owner-read" then .ok (some .bucketOwnerRead)
  else if acl = "bucket-owner-full-control" then .ok (some .bucketOwnerFullControl)
  else .error ("unknown acl: " ++ acl)

/-- The closed set of accepted non-empty ACL strings. -/
def allowedACLs : List String :=
  ["private", "public-read", "public-read-write", "authenticated-read",
   "aws-exec-read", "bucket-owner-read", "bucket-owner-full-control"]

/-- Outcome of the prelude of `Run` (`cp.go` lines 90-133), which runs
strictly before `c.Run`; `c.Run` is where the S3 client is created and
every network call happens, so a `validationExit1` outcome makes no
network call. -/
inductive RunOutcome
  | usageOnly
  | validationExit1 (msg : String)
  | proceed (parallel : Nat) (acl : Option ObjectCannedACL)
deriving DecidableEq, Repr

/-- Model of the `Run` prelude: argument-count check, `parallel`
defaulting, ACL validation, expires validation (`time.Parse` with layout
RFC 3339 is a library call, abstracted as the boolean `expiresParses`),
in the source order. -/
def cpRunPrelude (args : List String) (parallelFlag : Int)
    (aclFlag expiresFlag : String) (expiresParses : Bool) : RunOutcome :=
  if args.length ≠ 2 then .usageOnly
  else
    let par : Nat := if parallelFlag ≤ 0 then 4 else parallelFlag.toNat
    match parseACL aclFlag with
    | .error msg => .validationExit1 ("Validation error: " ++ msg)
    | .ok a =>
      if expiresFlag ≠ "" ∧ expiresParses = false then
        .validationExit1 "Validation error: expires"
      else .proceed par a

/-- Marker for outcomes that reach `c.Run` and therefore may touch the
network; the two early-exit outcomes never do. -/
def reachesNetwork : RunOutcome → Bool
  | .proceed _ _ => true
  | _ => false

/-! ### Flag wiring (`Init` in `cp.go`) and request metadata (`upload.go`) -/

/-- The package-level metadata variables of the `cp` package that the
metadata flags write to. -/
structure CpGlobals where
  cacheControl : String := ""
  contentDisposition : String := ""
  contentEncoding : String := ""
  contentLanguage : String := ""
  contentType : String := ""
deriving DecidableEq, Repr

/-- One flag assignment, mirroring the `StringVar` registrations in
`Init` (`cp.go` lines 65-69). Note the source registers the
`content-disposition` flag against the `cacheControl` variable
(`cp.go` line 67), and no flag is registered against the
`contentDisposition` variable. -/
def applyFlag (g : CpGlobals) : String × String → CpGlobals
  | ("content-type", v) => { g with contentType := v }
  | ("cache-control", v) => { g with cacheControl := v }
  | ("content-disposition", v) => { g with cacheControl := v }
  | ("content-encoding", v) => { g with contentEncoding := v }
  | ("content-language", v) => { g with contentLanguage := v }
  | _ => g

/-- Flag parsing applies assignments in command-line order. -/
def parseCpFlags (flags : List (String × String)) : CpGlobals :=
  flags.foldl applyFlag {}

/-- Model of `nullableString` in `cp.go`. -/
def nullableString (s : String) : Option String :=
  if s = "" then none else some s

/-- The metadata fields of a request, as far as the claims need them. -/
structure ObjectMetadataFields where
  cacheControl : Option String
  contentDisposition : Option String
  contentEncoding : Option String
  contentLanguage : Option String
deriving DecidableEq, Repr

/-- Metadata of `PutObjectInput` as built by `singlePartUpload`
(`upload.go` lines 278-289). -/
def putObjectMetadata (g : CpGlobals) : ObjectMetadataFields where
  cacheControl := nullableString g.cacheControl
  contentDisposition := nullableString g.contentDisposition
  contentEncoding := nullableString g.contentEncoding
  contentLanguage := nullableString g.contentLanguage

/-- Metadata of `CreateMultipartUploadInput` as built by `upload`
(`upload.go` lines 141-151). -/
def createMultipartUploadMetadata (g : CpGlobals) : ObjectMetadataFields where
  cacheControl := nullableString g.cacheControl
  contentDisposition := nullableString g.contentDisposition
  contentEncoding := nullableString g.contentEncoding
  contentLanguage := nullableString g.contentLanguage

/-! ### The transfer engine: events, sources, upload and copy traces

The per-object goroutine structure is sequentialised. Everything the
scheduler or the store decides is a parameter (an environment), so the
theorems below quantify over all schedules:
- `acquire k` is the result of the k-th semaphore acquisition attempted
  by this object (true = slot taken; `acquire` in `cp.go`);
- `createOk` / `headOk` are the store's answers to
  `CreateMultipartUpload` / `HeadObject`;
- `arrival` is the content of the mutex-guarded completed-parts list at
  the time the completion barrier falls, in arrival order (parts finish
  out of order);
- `cancelledAtFinalize` is whether `ctx.Err() != nil` when the
  completion goroutine wakes up after `wg.Wait()`. -/

/-- Which of the two contexts an S3 call is issued on: the working
context `c.ctx` or the cleanup context `c.ctxAbort`. -/
inductive Ctx
  | working
  | cleanup
deriving DecidableEq, Repr

/-- S3 protocol operations issued by the engine, abstracted to the
fields the claims mention. Bodies are abstracted to byte counts. -/
inductive S3Op
  | putObject (size : Nat)
  | createMultipartUpload (ok : Bool)
  | uploadPart (uid : String) (num : Nat) (size : Nat)
  | uploadPartCopy (uid : String) (num : Nat) (range : String)
  | completeMultipartUpload (uid : String) (parts : List (Nat × String))
  | abortMultipartUpload (uid : String)
  | copyObject
  | headObject (ok : Bool)
deriving DecidableEq, Repr

/-- An event: an S3 call together with the context it is issued on. -/
structure Event where
  ctx : Ctx
  op : S3Op
deriving DecidableEq, Repr

/-- The opaque upload id returned by a successful
`CreateMultipartUpload`; one object is modelled at a time, so a single
constant suffices. -/
def mpuID : String := "upload-id"

/-- An upload source after `initSize` (`upload.go` lines 213-243):
either a known-size positional reader (a regular file: `totalSize >= 0`
and the body is an `io.ReaderAt`), or a sequential stream of unknown
size (a pipe such as standard input). Payloads are abstracted to their
byte counts. -/
inductive Source
  | readerAt (size : Nat)
  | streaming (size : Nat)
deriving DecidableEq, Repr

/-- Total number of bytes the source will deliver. -/
def Source.size : Source → Nat
  | .readerAt s => s
  | .streaming s => s

/-- Model of `nextReader` (`upload.go` lines 245-269): returns the size
of the chunk handed out at cursor `pos`, and whether the call returned
`io.EOF`. The `readerAt` branch reports `io.EOF` exactly when the
remainder fits the chunk. The streaming branch reads through
`bytes.Buffer.ReadFrom`, which swallows `io.EOF` and returns a nil
error, so it never reports end of stream. -/
def nextChunk (src : Source) (pos : Nat) : Nat × Bool :=
  match src with
  | .readerAt total =>
    if total - pos ≤ copyChunkBytes then (total - pos, true)
    else (copyChunkBytes, false)
  | .streaming total => (min copyChunkBytes (total - pos), false)

/-- Scheduler and store decisions for one upload, see the section
comment. -/
structure UploadEnv where
  acquire : Nat → Bool
  createOk : Bool
  arrival : List (Nat × String)
  cancelledAtFinalize : Bool

/-- Model of Go `sort.Sort(completedPartsByPartNumber(u.parts))`
(`upload.go` line 200, and `sort.Sort(c.parts)` in the copy pipeline):
a comparison sort whose `Less` compares part numbers. Any sorted
permutation is observationally the Go result; insertion sort is used so
the definition evaluates by kernel reduction. -/
def sortParts (l : List (Nat × String)) : List (Nat × String) :=
  List.insertionSort (fun a b => a.1 ≤ b.1) l

/-- Fuel bound for the dispatch loop: each iteration either consumes at
least one byte or stops. -/
def uploadFuel (src : Source) : Nat := src.size + 2

/-- The part-dispatch loop of `upload` (`upload.go` lines 158-180),
returning `(part number, chunk size)` for each dispatched `UploadPart`.
Arguments: remaining fuel, next part number `num`, reader cursor `pos`
(the current chunk is already consumed), acquire counter `k`, current
chunk size `r`, and whether the last `nextReader` returned `io.EOF`. -/
def uploadLoop (src : Source) (env : UploadEnv) :
    Nat → Nat → Nat → Nat → Nat → Bool → List (Nat × Nat)
  | 0, _, _, _, _, _ => []
  | fuel + 1, num, pos, k, r, eof =>
    if env.acquire k = false then []
    else
      (num, r) ::
        (if eof then []
         else
           let next := nextChunk src pos
           if next.1 = 0 then []
           else uploadLoop src env fuel (num + 1) (pos + next.1) (k + 1) next.1 next.2)

/-- The parts dispatched by the loop of `upload`, on the multipart
path: the first chunk is already in hand (cursor advanced past it) and
did not carry `io.EOF`. -/
def dispatchedParts (src : Source) (env : UploadEnv) : List (Nat × Nat) :=
  uploadLoop src env (uploadFuel src) 1 (nextChunk src 0).1 0 (nextChunk src 0).1 false

/-- The event trace of `upload` (`upload.go` lines 128-211) for one
object: single-part `PutObject` when the first `nextReader` returned
`io.EOF`; otherwise `CreateMultipartUpload`, the dispatch loop, and the
completion goroutine, which runs exactly one of
`AbortMultipartUpload` (working context cancelled) or
`CompleteMultipartUpload` (otherwise), both on the cleanup context. -/
def uploadTrace (src : Source) (env : UploadEnv) : List Event :=
  let first := nextChunk src 0
  if first.2 then
    if env.acquire 0 then [⟨.working, .putObject first.1⟩] else []
  else
    ⟨.working, .createMultipartUpload env.createOk⟩ ::
      (if env.createOk then
        (dispatchedParts src env).map
            (fun p => ⟨.working, .uploadPart mpuID p.1 p.2⟩) ++
          [if env.cancelledAtFinalize then
              ⟨.cleanup, .abortMultipartUpload mpuID⟩
            else
              ⟨.cleanup, .completeMultipartUpload mpuID (sortParts env.arrival)⟩]
      else [])

/-! ### The copy pipeline (`copier` in the cp package) -/

/-- Scheduler and store decisions for one server-side copy. -/
structure CopyEnv where
  acquire : Nat → Bool
  headOk : Bool
  createOk : Bool
  arrival : List (Nat × String)
  cancelledAtFinalize : Bool

/-- Model of `fmt.Sprintf("bytes=%d-%d", pos, lastByte)` in
`copyChunk`. -/
def rangeHeader (pos lastByte : Nat) : String :=
  "bytes=" ++ toString pos ++ "-" ++ toString lastByte

/-- Fuel bound for the copy loop: the cursor advances by a full chunk
each iteration. -/
def copyFuel (size : Nat) : Nat := size / copyChunkBytes + 2

/-- The part-dispatch loop of `copy`: `for i, pos := 1, 0; pos < size;
i, pos = i+1, pos+copyChunkBytes` with
`lastByte = min(pos+copyChunkBytes-1, size-1)`, stopping early when
`acquire` fails. Returns `(part number, pos, lastByte)` per dispatched
`UploadPartCopy`. -/
def copyLoop (size : Nat) (env : CopyEnv) :
    Nat → Nat → Nat → Nat → List (Nat × Nat × Nat)
  | 0, _, _, _ => []
  | fuel + 1, i, pos, k =>
    if pos < size then
      let lastByte := min (pos + copyChunkBytes - 1) (size - 1)
      if env.acquire k = false then []
      else (i, pos, lastByte) :: copyLoop size env fuel (i + 1) (pos + copyChunkBytes) (k + 1)
    else []

/-- The parts dispatched by the loop of `copy`. -/
def copyDispatched (size : Nat) (env : CopyEnv) : List (Nat × Nat × Nat) :=
  copyLoop size env (copyFuel size) 1 0 0

/-- The event trace of `copy` for one object of the given source size:
`HeadObject` first (`initSize`); on success, a single `CopyObject` when
the size is at most `maxCopyObjectBytes`, otherwise
`CreateMultipartUpload`, the copy loop, and the completion goroutine
issuing exactly one of abort or complete on the cleanup context. -/
def copyTrace (size : Nat) (env : CopyEnv) : List Event :=
  ⟨.working, .headObject env.headOk⟩ ::
    (if env.headOk = false then []
     else if size ≤ maxCopyObjectBytes then
       (if env.acquire 0 then [⟨.working, .copyObject⟩] else [])
     else
       ⟨.working, .createMultipartUpload env.createOk⟩ ::
         (if env.createOk then
           (copyDispatched size env).map
               (fun t => ⟨.working, .uploadPartCopy mpuID t.1 (rangeHeader t.2.1 t.2.2)⟩) ++
             [if env.cancelledAtFinalize then
                 ⟨.cleanup, .abortMultipartUpload mpuID⟩
               else
                 ⟨.cleanup, .completeMultipartUpload mpuID (sortParts env.arrival)⟩]
         else []))

/-! ### The worker pool (`acquire`, `release`, `semaphore` in `cp.go`)

The pool is a counting semaphore: a buffered channel of capacity
`parallel`. `acquire` is a Go select between the cancelled working
context and a send on the channel; when both are ready, Go picks one of
the ready cases uniformly at random, so the model keeps both
transitions enabled. The pool is modelled as a labelled transition
system over all objects and tasks. -/

/-- Model of the `parallel` defaulting in `Run` (`cp.go` lines
103-105): values of the flag that are zero or negative become 4. -/
def effectiveParallel (p : Int) : Nat := if p ≤ 0 then 4 else p.toNat

/-- Pool state: whether the working context has been cancelled, how
many tasks hold a slot without being inside a protocol operation, and
how many are inside one. -/
structure PoolState where
  cancelled : Bool
  idleHolders : Nat
  running : Nat
deriving DecidableEq, Repr

/-- Initial pool state. -/
def PoolState.init : PoolState := ⟨false, 0, 0⟩

/-- Number of semaphore slots currently taken. -/
def PoolState.held (s : PoolState) : Nat := s.idleHolders + s.running

/-- Pool events: context cancellation, the two outcomes of `acquire`,
entering and leaving a protocol operation, and `release`. -/
inductive PoolEvent
  | cancel
  | acquireTrue
  | acquireFalse
  | startOp
  | endOp
  | release
deriving DecidableEq, Repr

/-- One transition of the pool. `acquireTrue` is enabled whenever the
semaphore has room (the channel send is ready), whether or not the
context is cancelled; `acquireFalse` is enabled only once the context
is cancelled (the Done channel is closed). -/
def poolStep (cap : Nat) (s : PoolState) : PoolEvent → Option PoolState
  | .cancel => some { s with cancelled := true }
  | .acquireTrue =>
    if s.held < cap then some { s with idleHolders := s.idleHolders + 1 } else none
  | .acquireFalse => if s.cancelled then some s else none
  | .startOp =>
    if 0 < s.idleHolders then
      some { s with idleHolders := s.idleHolders - 1, running := s.running + 1 }
    else none
  | .endOp =>
    if 0 < s.running then
      some { s with running := s.running - 1, idleHolders := s.idleHolders + 1 }
    else none
  | .release =>
    if 0 < s.idleHolders then some { s with idleHolders := s.idleHolders - 1 } else none

/-- Run a sequence of pool events; `none` when some event was not
enabled. -/
def runPool (cap : Nat) : PoolState → List PoolEvent → Option PoolState
  | s, [] => some s
  | s, e :: tr =>
    match poolStep cap s e with
    | some s2 => runPool cap s2 tr
    | none => none

/-- The claim's temporal property, as a predicate on pool traces: once
`cancel` has happened, `acquire` never again returns true. -/
def noAcquireTrueAfterCancel : List PoolEvent → Bool
  | [] => true
  | .cancel :: tr => !tr.contains .acquireTrue
  | _ :: tr => noAcquireTrueAfterCancel tr

/-! ### Helper lemmas -/

/-- Comparison used by `sortParts`, on part numbers. -/
def partLE (a b : Nat × String) : Prop := a.1 ≤ b.1

instance : DecidableRel partLE := fun a b => Nat.decLe a.1 b.1

instance : IsTotal (Nat × String) partLE := ⟨fun a b => Nat.le_total a.1 b.1⟩

instance : IsTrans (Nat × String) partLE := ⟨fun _ _ _ hab hbc => Nat.le_trans hab hbc⟩

instance : IsAntisymm (Nat × String) (fun a b : Nat × String => a.1 < b.1) :=
  ⟨fun _ _ h1 h2 => absurd h1 (Nat.lt_asymm h2)⟩

theorem sortParts_eq_insertionSort (l : List (Nat × String)) :
    sortParts l = List.insertionSort partLE l := rfl

/-- The canonical completed-parts list: part numbers `start`,
`start+1`, ... with their etags. -/
def canonicalParts (start n : Nat) (f : Nat → String) : List (Nat × String) :=
  (List.range' start n).map (fun j => (j, f j))

theorem canonicalParts_pairwise_lt (start n : Nat) (f : Nat → String) :
    (canonicalParts start n f).Pairwise (fun a b => a.1 < b.1) := by
  unfold canonicalParts
  rw [List.pairwise_map]
  exact List.pairwise_lt_range' start n

theorem canonicalParts_map_fst (start n : Nat) (f : Nat → String) :
    (canonicalParts start n f).map Prod.fst = List.range' start n := by
  unfold canonicalParts
  rw [List.map_map]
  have hid : (Prod.fst ∘ fun j : Nat => (j, f j)) = id := rfl
  rw [hid, List.map_id]

/-- Sorting any permutation of the canonical list by part number gives
back the canonical list: the part numbers are distinct, so the sorted
permutation is unique. -/
theorem sortParts_of_perm_canonical (start n : Nat) (f : Nat → String)
    (l : List (Nat × String)) (h : l.Perm (canonicalParts start n f)) :
    sortParts l = canonicalParts start n f := by
  have hperm : (sortParts l).Perm (canonicalParts start n f) :=
    (List.perm_insertionSort partLE l).trans h
  have hsorted : List.Sorted partLE (sortParts l) :=
    List.sorted_insertionSort partLE l
  have hcanon : (canonicalParts start n f).Pairwise (fun a b => a.1 < b.1) :=
    canonicalParts_pairwise_lt start n f
  have hcanonkeys := canonicalParts_map_fst start n f
  have hnodup : ((sortParts l).map Prod.fst).Nodup := by
    rw [(hperm.map Prod.fst).nodup_iff, hcanonkeys]
    exact List.nodup_range' start n
  have hne : (sortParts l).Pairwise (fun a b : Nat × String => a.1 ≠ b.1) := by
    have := List.pairwise_map.mp hnodup
    exact this
  have hlt : (sortParts l).Pairwise (fun a b : Nat × String => a.1 < b.1) := by
    have := hsorted.and hne
    exact this.imp fun h => Nat.lt_of_le_of_ne h.1 h.2
  exact List.eq_of_perm_of_sorted hperm hlt hcanon

/-- The part numbers dispatched by the upload loop are contiguous
starting from the initial part number, whatever the schedule does. -/
theorem uploadLoop_map_fst (src : Source) (env : UploadEnv) :
    ∀ fuel num pos k r eof,
      (uploadLoop src env fuel num pos k r eof).map Prod.fst =
        List.range' num (uploadLoop src env fuel num pos k r eof).length := by
  intro fuel
  induction fuel with
  | zero => intro num pos k r eof; rfl
  | succ fuel ih =>
    intro num pos k r eof
    unfold uploadLoop
    by_cases hacq : env.acquire k = false
    · rw [if_pos hacq]; rfl
    · rw [if_neg hacq]
      by_cases heof : eof = true
      · rw [if_pos heof]
        simp [List.range'_succ]
      · rw [if_neg heof]
        by_cases hz : (nextChunk src pos).1 = 0
        · rw [if_pos hz]
          simp [List.range'_succ]
        · rw [if_neg hz]
          rw [List.map_cons, List.length_cons, List.range'_succ, ih]

/-- Every chunk dispatched by the upload loop is positive if the chunk
in hand is. -/
theorem uploadLoop_sizes_pos (src : Source) (env : UploadEnv) :
    ∀ fuel num pos k r eof, 0 < r →
      ∀ p ∈ uploadLoop src env fuel num pos k r eof, 0 < p.2 := by
  intro fuel
  induction fuel with
  | zero => intro num pos k r eof _ p hp; simp [uploadLoop] at hp
  | succ fuel ih =>
    intro num pos k r eof hr p hp
    unfold uploadLoop at hp
    by_cases hacq : env.acquire k = false
    · rw [if_pos hacq] at hp; simp at hp
    · rw [if_neg hacq, List.mem_cons] at hp
      rcases hp with hp | hp
      · subst hp; exact hr
      · by_cases heof : eof = true
        · rw [if_pos heof] at hp; simp at hp
        · rw [if_neg heof] at hp
          by_cases hz : (nextChunk src pos).1 = 0
          · rw [if_pos hz] at hp; simp at hp
          · rw [if_neg hz] at hp
            exact ih _ _ _ _ _ (Nat.pos_of_ne_zero hz) p hp

/-- Start of the byte range of part `i` (1-based) in a multipart copy,
as the claim states it. -/
def partStart (i : Nat) : Nat := (i - 1) * copyChunkBytes

/-- Last byte of the range of part `i` in a multipart copy of `size`
bytes, as the claim states it. -/
def partLast (size i : Nat) : Nat := min (i * copyChunkBytes - 1) (size - 1)

/-- Number of parts of a multipart copy of `size` bytes. -/
def numCopyParts (size : Nat) : Nat :=
  (size + copyChunkBytes - 1) / copyChunkBytes

/-- Pointwise shape of the triples dispatched by the copy loop: each
carries the clamped range end for its own position, and starts inside
the object. No scheduling assumption is needed. -/
theorem copyLoop_mem_shape (size : Nat) (env : CopyEnv) :
    ∀ fuel i pos k t, t ∈ copyLoop size env fuel i pos k →
      t.2.2 = min (t.2.1 + copyChunkBytes - 1) (size - 1) ∧ t.2.1 < size := by
  intro fuel
  induction fuel with
  | zero => intro i pos k t ht; simp [copyLoop] at ht
  | succ fuel ih =>
    intro i pos k t ht
    unfold copyLoop at ht
    by_cases hlt : pos < size
    · rw [if_pos hlt] at ht
      by_cases hacq : env.acquire k = false
      · rw [if_pos hacq] at ht; simp at ht
      · rw [if_neg hacq, List.mem_cons] at ht
        rcases ht with ht | ht
        · subst ht; exact ⟨rfl, hlt⟩
        · exact ih _ _ _ t ht
    · rw [if_neg hlt] at ht; simp at ht

/-- Full characterization of the copy loop when the semaphore never
refuses: starting at part `i` with the cursor at `(i-1)*copyChunkBytes`
and enough fuel, it dispatches exactly parts `i..numCopyParts size`,
each with the claimed range. -/
theorem copyLoop_eq_of_all_acquire (size : Nat) (env : CopyEnv)
    (hall : ∀ k, env.acquire k = true) :
    ∀ fuel i k, 1 ≤ i → numCopyParts size ≤ i - 1 + fuel →
      copyLoop size env fuel i ((i - 1) * copyChunkBytes) k =
        (List.range' i (numCopyParts size - (i - 1))).map
          (fun j => (j, partStart j, partLast size j)) := by
  intro fuel
  induction fuel with
  | zero =>
    intro i k hi hfuel
    have hz : numCopyParts size - (i - 1) = 0 := by omega
    rw [hz]
    rfl
  | succ fuel ih =>
    intro i k hi hfuel
    unfold copyLoop
    by_cases hlt : (i - 1) * copyChunkBytes < size
    · have hiN : i - 1 < numCopyParts size := by
        unfold numCopyParts copyChunkBytes at *
        omega
      rw [if_pos hlt]
      have hne : ¬ env.acquire k = false := by simp [hall k]
      rw [if_neg hne]
      have hrw : numCopyParts size - (i - 1) = (numCopyParts size - i) + 1 := by
        omega
      rw [hrw, List.range'_succ, List.map_cons]
      have hhead : (i, (i - 1) * copyChunkBytes,
          min ((i - 1) * copyChunkBytes + copyChunkBytes - 1) (size - 1)) =
          (i, partStart i, partLast size i) := by
        unfold partStart partLast copyChunkBytes at *
        have : (i - 1) * 5242880 + 5242880 - 1 = i * 5242880 - 1 := by omega
        rw [this]
      rw [hhead]
      have hpos : (i - 1) * copyChunkBytes + copyChunkBytes = (i + 1 - 1) * copyChunkBytes := by
        unfold copyChunkBytes at *
        omega
      rw [hpos, ih (i + 1) (k + 1) (by omega) (by omega)]
      have : numCopyParts size - (i + 1 - 1) = numCopyParts size - i := by omega
      rw [this]
    · have hz : numCopyParts size - (i - 1) = 0 := by
        unfold numCopyParts copyChunkBytes at *
        omega
      rw [if_neg hlt, hz]
      rfl

/-- The dispatched copy parts, in closed form, when the semaphore
never refuses. -/
theorem copyDispatched_eq_of_all_acquire (size : Nat) (env : CopyEnv)
    (hall : ∀ k, env.acquire k = true) :
    copyDispatched size env =
      (List.range' 1 (numCopyParts size)).map
        (fun j => (j, partStart j, partLast size j)) := by
  unfold copyDispatched
  have hcl := copyLoop_eq_of_all_acquire size env hall (copyFuel size) 1 0 (le_refl 1)
    (by simp only [numCopyParts, copyFuel, copyChunkBytes]; omega)
  norm_num at hcl
  exact hcl

/-- The part numbers dispatched by the copy loop are contiguous,
whatever the schedule does. -/
theorem copyLoop_map_fst (size : Nat) (env : CopyEnv) :
    ∀ fuel i pos k,
      (copyLoop size env fuel i pos k).map (fun t => t.1) =
        List.range' i (copyLoop size env fuel i pos k).length := by
  intro fuel
  induction fuel with
  | zero => intro i pos k; rfl
  | succ fuel ih =>
    intro i pos k
    unfold copyLoop
    by_cases hlt : pos < size
    · rw [if_pos hlt]
      by_cases hacq : env.acquire k = false
      · rw [if_pos hacq]; rfl
      · rw [if_neg hacq]
        rw [List.map_cons, List.length_cons, List.range'_succ, ih]
    · rw [if_neg hlt]; rfl

/-- An environment in which every acquire succeeds, every store call
succeeds, one part with etag `etag-1` arrived, and the working context
is never cancelled. -/
def allGoodUploadEnv : UploadEnv where
  acquire := fun _ => true
  createOk := true
  arrival := [(1, "etag-1")]
  cancelledAtFinalize := false

/-- Copy-pipeline counterpart of `allGoodUploadEnv`. -/
def allGoodCopyEnv : CopyEnv where
  acquire := fun _ => true
  headOk := true
  createOk := true
  arrival := [(1, "etag-1")]
  cancelledAtFinalize := false

/-! ### Claim theorems -/

/-- Claim C10: for every input to the path parser, after stripping an
optional `s3://` scheme, if the remainder contains no slash at all or
its first slash is at position zero, the entire remainder becomes the
bucket and the key is empty; otherwise the bucket is the prefix before
the first slash and the key is everything after it. In particular
`s3://bucket` parses to bucket `bucket` with an empty key and
`s3:///x` parses to bucket `/x` with an empty key. -/
theorem claim_C10_parsePath :
    (∀ p : List Char, parsePath p = parsePathSpec p) ∧
    parsePath "s3://bucket".toList = ("bucket".toList, []) ∧
    parsePath "s3:///x".toList = ("/x".toList, []) := by
  refine ⟨fun p => ?_, by decide, by decide⟩
  rw [parsePath_eq_splitBucketKey, parsePathSpec_eq_splitBucketKeySpec]
  exact splitBucketKey_eq_spec _

/-- A non-empty string outside the canned set parses to the
`unknown acl` error. -/
theorem parseACL_error_of_not_allowed (s : String) (hne : s ≠ "")
    (hmem : s ∉ allowedACLs) :
    parseACL s = .error ("unknown acl: " ++ s) := by
  simp only [allowedACLs, List.mem_cons, List.mem_singleton, not_or] at hmem
  have h1 := hmem.1
  have h2 := hmem.2.1
  have h3 := hmem.2.2.1
  have h4 := hmem.2.2.2.1
  have h5 := hmem.2.2.2.2.1
  have h6 := hmem.2.2.2.2.2.1
  have h7 := hmem.2.2.2.2.2.2.1
  unfold parseACL
  rw [if_neg hne, if_neg h1, if_neg h2, if_neg h3, if_neg h4, if_neg h5,
    if_neg h6, if_neg h7]

/-- Claim C9: any non-empty `--acl` value outside the closed canned set
is a validation error detected by the `Run` prelude, which exits with
status 1 without reaching `c.Run` (where every network call is made);
the empty string and every member of the set are accepted by
`parseACL`. -/
theorem claim_C9_aclValidation :
    (∀ (s : String) (args : List String) (pf : Int) (ef : String) (ep : Bool),
      s ≠ "" → s ∉ allowedACLs → args.length = 2 →
      cpRunPrelude args pf s ef ep =
          .validationExit1 ("Validation error: " ++ ("unknown acl: " ++ s)) ∧
        reachesNetwork (cpRunPrelude args pf s ef ep) = false) ∧
    (∀ s : String, s = "" ∨ s ∈ allowedACLs → ∃ a, parseACL s = .ok a) := by
  constructor
  · intro s args pf ef ep hne hmem hlen
    have hacl := parseACL_error_of_not_allowed s hne hmem
    have hout : cpRunPrelude args pf s ef ep =
        .validationExit1 ("Validation error: " ++ ("unknown acl: " ++ s)) := by
      unfold cpRunPrelude
      rw [if_neg (by omega : ¬ args.length ≠ 2), hacl]
    exact ⟨hout, by rw [hout]; rfl⟩
  · intro s hs
    rcases hs with hs | hs
    · exact ⟨none, by rw [hs]; rfl⟩
    · simp only [allowedACLs, List.mem_cons] at hs
      rcases hs with hs | hs | hs | hs | hs | hs | hs | hs
      · exact hs ▸ ⟨some .priv, rfl⟩
      · exact hs ▸ ⟨some .publicRead, rfl⟩
      · exact hs ▸ ⟨some .publicReadWrite, rfl⟩
      · exact hs ▸ ⟨some .authenticatedRead, rfl⟩
      · exact hs ▸ ⟨some .awsExecRead, rfl⟩
      · exact hs ▸ ⟨some .bucketOwnerRead, rfl⟩
      · exact hs ▸ ⟨some .bucketOwnerFullControl, rfl⟩
      · simp at hs

/-- Witness for claim C9 at the concrete inputs `--acl foo` (rejected
before the network with exit status 1) and `--acl private`
(accepted). -/
theorem claim_C9_aclValidation_witness :
    (cpRunPrelude ["src", "dst"] 0 "foo" "" true =
        .validationExit1 ("Validation error: " ++ ("unknown acl: " ++ "foo")) ∧
      reachesNetwork (cpRunPrelude ["src", "dst"] 0 "foo" "" true) = false) ∧
    (∃ a, parseACL "private" = .ok a) :=
  ⟨claim_C9_aclValidation.1 "foo" ["src", "dst"] 0 "" true (by decide)
      (by decide) (by decide),
    claim_C9_aclValidation.2 "private" (Or.inr (by decide))⟩

/-- Claim C3 (refuted by the code, which contradicts its own flag help
text and the documented behaviour): passing `--content-disposition
attachment` and no other metadata flag yields requests whose
`ContentDisposition` field is absent and whose `CacheControl` field is
`attachment`, for both `PutObject` and `CreateMultipartUpload`,
because `Init` registers the `content-disposition` flag against the
`cacheControl` variable. -/
theorem claim_C3_contentDisposition_bug :
    putObjectMetadata (parseCpFlags [("content-disposition", "attachment")]) =
      { cacheControl := some "attachment", contentDisposition := none,
        contentEncoding := none, contentLanguage := none } ∧
    createMultipartUploadMetadata
        (parseCpFlags [("content-disposition", "attachment")]) =
      { cacheControl := some "attachment", contentDisposition := none,
        contentEncoding := none, contentLanguage := none } ∧
    (putObjectMetadata
        (parseCpFlags [("content-disposition", "attachment")])).contentDisposition ≠
      some "attachment" :=
  ⟨by decide, by decide, by decide⟩

/-- Claim C4: after `HeadObject` reports the source length, the copy
pipeline issues a single `CopyObject` iff the length is at most
`maxCopyObjectBytes` (and then never calls `CreateMultipartUpload`);
for any strictly larger length it calls `CreateMultipartUpload` and
never `CopyObject`, and every dispatched part spans exactly
`copyChunkBytes` bytes except possibly the final part, which ends at
the last byte of the object. The boundary cases (size exactly
`maxCopyObjectBytes`, and one byte more) are instances of the two
branches. -/
theorem claim_C4_copyDecision (size : Nat) (env : CopyEnv)
    (hhead : env.headOk = true) :
    (size ≤ maxCopyObjectBytes →
      ((Event.mk .working .copyObject ∈ copyTrace size env) ↔ env.acquire 0 = true) ∧
      (∀ ok, Event.mk .working (.createMultipartUpload ok) ∉ copyTrace size env)) ∧
    (maxCopyObjectBytes < size →
      Event.mk .working (.createMultipartUpload env.createOk) ∈ copyTrace size env ∧
      (Event.mk .working .copyObject ∉ copyTrace size env) ∧
      (∀ t ∈ copyDispatched size env,
        t.2.2 + 1 - t.2.1 = copyChunkBytes ∨ t.2.2 = size - 1)) := by
  have hhf : ¬ env.headOk = false := by simp [hhead]
  constructor
  · intro hle
    unfold copyTrace
    rw [if_neg hhf, if_pos hle]
    constructor
    · cases hacq : env.acquire 0 with
      | true => simp
      | false => simp
    · intro ok
      cases hacq : env.acquire 0 with
      | true => simp
      | false => simp
  · intro hgt
    have hnle : ¬ size ≤ maxCopyObjectBytes := by omega
    refine ⟨?_, ?_, ?_⟩
    · unfold copyTrace
      rw [if_neg hhf, if_neg hnle]
      exact List.mem_cons_of_mem _ (List.mem_cons_self _ _)
    · unfold copyTrace
      rw [if_neg hhf, if_neg hnle]
      intro hmem
      rcases List.mem_cons.mp hmem with h | h
      · exact Event.noConfusion h fun _ h => S3Op.noConfusion h
      rcases List.mem_cons.mp h with h | h
      · exact Event.noConfusion h fun _ h => S3Op.noConfusion h
      · cases hok : env.createOk with
        | false => rw [hok] at h; simp at h
        | true =>
          rw [hok] at h
          rw [if_pos rfl] at h
          rcases List.mem_append.mp h with h | h
          · rcases List.mem_map.mp h with ⟨t, _, ht⟩
            exact Event.noConfusion ht fun _ h => S3Op.noConfusion h
          · rcases List.mem_singleton.mp h with h
            cases hcf : env.cancelledAtFinalize with
            | true =>
              rw [hcf, if_pos rfl] at h
              exact Event.noConfusion h fun _ h => S3Op.noConfusion h
            | false =>
              rw [hcf] at h
              rw [if_neg (by simp)] at h
              exact Event.noConfusion h fun _ h => S3Op.noConfusion h
    · intro t ht
      obtain ⟨hshape, hpos⟩ :=
        copyLoop_mem_shape size env (copyFuel size) 1 0 0 t ht
      unfold copyChunkBytes at *
      omega

/-- Witness for claim C4 at the boundary: a source of exactly
`maxCopyObjectBytes` is copied with a single `CopyObject` (no
`CreateMultipartUpload`), and one byte more calls
`CreateMultipartUpload` and no `CopyObject`. -/
theorem claim_C4_copyDecision_witness :
    ((Event.mk .working .copyObject ∈ copyTrace maxCopyObjectBytes allGoodCopyEnv) ↔
      allGoodCopyEnv.acquire 0 = true) ∧
    (∀ ok, Event.mk .working (.createMultipartUpload ok) ∉
      copyTrace maxCopyObjectBytes allGoodCopyEnv) ∧
    Event.mk .working (.createMultipartUpload true) ∈
      copyTrace (maxCopyObjectBytes + 1) allGoodCopyEnv ∧
    Event.mk .working .copyObject ∉ copyTrace (maxCopyObjectBytes + 1) allGoodCopyEnv :=
  ⟨((claim_C4_copyDecision maxCopyObjectBytes allGoodCopyEnv rfl).1 (by decide)).1,
    ((claim_C4_copyDecision maxCopyObjectBytes allGoodCopyEnv rfl).1 (by decide)).2,
    ((claim_C4_copyDecision (maxCopyObjectBytes + 1) allGoodCopyEnv rfl).2 (by decide)).1,
    ((claim_C4_copyDecision (maxCopyObjectBytes + 1) allGoodCopyEnv rfl).2 (by decide)).2.1⟩

/-- Claim C6: in a multipart copy of `size > maxCopyObjectBytes` bytes
with no early semaphore refusal, part `i` (1-based) covers exactly the
byte range from `(i-1)*copyChunkBytes` to
`min(i*copyChunkBytes - 1, size - 1)`; the ranges are non-empty, lie
inside the object, and partition the byte positions `0..size-1` (every
byte belongs to exactly one part); and every `UploadPartCopy` event
carries the header string `bytes=<pos>-<last>` for its own range. -/
theorem claim_C6_copyRanges (size : Nat) (env : CopyEnv)
    (hgt : maxCopyObjectBytes < size) (hall : ∀ k, env.acquire k = true) :
    copyDispatched size env =
        (List.range' 1 (numCopyParts size)).map
          (fun j => (j, partStart j, partLast size j)) ∧
    (∀ c uid num rng, Event.mk c (.uploadPartCopy uid num rng) ∈ copyTrace size env →
      uid = mpuID ∧ rng = rangeHeader (partStart num) (partLast size num)) ∧
    (∀ b, b < size → ∃! i, 1 ≤ i ∧ i ≤ numCopyParts size ∧
      partStart i ≤ b ∧ b ≤ partLast size i) ∧
    (∀ i, 1 ≤ i → i ≤ numCopyParts size →
      partStart i ≤ partLast size i ∧ partLast size i ≤ size - 1) := by
  have hchar := copyDispatched_eq_of_all_acquire size env hall
  refine ⟨hchar, ?_, ?_, ?_⟩
  · intro c uid num rng hmem
    unfold copyTrace at hmem
    by_cases hhf : env.headOk = false
    · rw [if_pos hhf] at hmem
      rcases List.mem_cons.mp hmem with h | h
      · exact Event.noConfusion h fun _ h => S3Op.noConfusion h
      · simp at h
    · rw [if_neg hhf] at hmem
      by_cases hle : size ≤ maxCopyObjectBytes
      · omega
      · rw [if_neg hle] at hmem
        rcases List.mem_cons.mp hmem with h | h
        · exact Event.noConfusion h fun _ h => S3Op.noConfusion h
        rcases List.mem_cons.mp h with h | h
        · exact Event.noConfusion h fun _ h => S3Op.noConfusion h
        cases hok : env.createOk with
        | false => rw [hok] at h; simp at h
        | true =>
          rw [hok, if_pos rfl] at h
          rcases List.mem_append.mp h with h | h
          · rcases List.mem_map.mp h with ⟨t, htmem, ht⟩
            rw [hchar] at htmem
            rcases List.mem_map.mp htmem with ⟨j, _, hj⟩
            subst hj
            obtain ⟨hc, hop⟩ := Event.mk.inj ht
            obtain ⟨h1, h2, h3⟩ := S3Op.uploadPartCopy.inj hop
            exact ⟨h1.symm, by rw [← h3, ← h2]⟩
          · rcases List.mem_singleton.mp h with h
            cases hcf : env.cancelledAtFinalize with
            | true =>
              rw [hcf, if_pos rfl] at h
              exact Event.noConfusion h fun _ h => S3Op.noConfusion h
            | false =>
              rw [hcf, if_neg (by simp)] at h
              exact Event.noConfusion h fun _ h => S3Op.noConfusion h
  · intro b hb
    refine ⟨b / copyChunkBytes + 1,
      ⟨Nat.succ_le_succ (Nat.zero_le _), ?_, ?_, ?_⟩, ?_⟩
    · simp only [numCopyParts, copyChunkBytes]
      omega
    · simp only [partStart, copyChunkBytes]
      omega
    · simp only [partLast, copyChunkBytes]
      omega
    · intro j hj
      obtain ⟨hj1, hjN, hjlo, hjhi⟩ := hj
      simp only [partStart, partLast, numCopyParts, copyChunkBytes] at hjN hjlo hjhi ⊢
      omega
  · intro i hi1 hiN
    simp only [partStart, partLast, numCopyParts, copyChunkBytes] at hiN ⊢
    constructor
    · omega
    · omega

/-- Witness for claim C6 one byte above the single-copy limit, with
every acquire succeeding. -/
theorem claim_C6_copyRanges_witness :
    maxCopyObjectBytes < maxCopyObjectBytes + 1 ∧
    (∀ b, b < maxCopyObjectBytes + 1 →
      ∃! i, 1 ≤ i ∧ i ≤ numCopyParts (maxCopyObjectBytes + 1) ∧
        partStart i ≤ b ∧ b ≤ partLast (maxCopyObjectBytes + 1) i) :=
  ⟨by omega,
    (claim_C6_copyRanges (maxCopyObjectBytes + 1) allGoodCopyEnv (by omega)
      (fun _ => rfl)).2.2.1⟩

/-- Counterexample to claim C2: a 24-byte streaming source (standard
input) fits entirely in one chunk, yet the engine calls
`CreateMultipartUpload` and uploads it as a one-part multipart upload;
no `PutObject` is issued. The streaming branch of `nextReader` reads
through `bytes.Buffer.ReadFrom`, which swallows `io.EOF`, so the
single-part branch of `upload` is unreachable for streaming sources. -/
theorem claim_C2_counterexample :
    24 ≤ copyChunkBytes ∧
    uploadTrace (Source.streaming 24) allGoodUploadEnv =
      [⟨.working, .createMultipartUpload true⟩,
       ⟨.working, .uploadPart mpuID 1 24⟩,
       ⟨.cleanup, .completeMultipartUpload mpuID [(1, "etag-1")]⟩] :=
  ⟨by decide, by decide⟩

/-- Claim C2 amended: the coordinator chooses the single-part
`PutObject` path iff the first `nextReader` call returned `io.EOF`.
For known-size positional sources that holds iff the payload is at
most `copyChunkBytes`; for streaming sources (standard input) the
first read never reports `io.EOF`, so `CreateMultipartUpload` is
always called (even for a 24-byte pipe) and `PutObject` never. -/
theorem claim_C2_singlePartCriterion :
    (∀ size : Nat,
      ((nextChunk (Source.readerAt size) 0).2 = true ↔ size ≤ copyChunkBytes)) ∧
    (∀ size : Nat, (nextChunk (Source.streaming size) 0).2 = false) ∧
    (∀ (src : Source) (env : UploadEnv), (nextChunk src 0).2 = true →
      (∀ ok, Event.mk .working (.createMultipartUpload ok) ∉ uploadTrace src env) ∧
      (env.acquire 0 = true →
        uploadTrace src env = [Event.mk .working (.putObject (nextChunk src 0).1)])) ∧
    (∀ (src : Source) (env : UploadEnv), (nextChunk src 0).2 = false →
      Event.mk .working (.createMultipartUpload env.createOk) ∈ uploadTrace src env ∧
      (∀ n, Event.mk .working (.putObject n) ∉ uploadTrace src env)) := by
  refine ⟨?_, ?_, ?_, ?_⟩
  · intro size
    simp only [nextChunk, Nat.sub_zero]
    by_cases h : size ≤ copyChunkBytes
    · rw [if_pos h]; simp [h]
    · rw [if_neg h]; simp [h]
  · intro size; rfl
  · intro src env hfst
    unfold uploadTrace
    rw [if_pos hfst]
    constructor
    · intro ok
      cases hacq : env.acquire 0 with
      | true => simp
      | false => simp
    · intro hacq
      rw [if_pos hacq]
  · intro src env hfst
    unfold uploadTrace
    rw [if_neg (by simp [hfst])]
    refine ⟨List.mem_cons_self _ _, ?_⟩
    intro n hmem
    rcases List.mem_cons.mp hmem with h | h
    · exact Event.noConfusion h fun _ h => S3Op.noConfusion h
    · cases hok : env.createOk with
      | false => rw [hok] at h; simp at h
      | true =>
        rw [hok, if_pos rfl] at h
        rcases List.mem_append.mp h with h | h
        · rcases List.mem_map.mp h with ⟨t, _, ht⟩
          exact Event.noConfusion ht fun _ h => S3Op.noConfusion h
        · rcases List.mem_singleton.mp h with h
          cases hcf : env.cancelledAtFinalize with
          | true =>
            rw [hcf, if_pos rfl] at h
            exact Event.noConfusion h fun _ h => S3Op.noConfusion h
          | false =>
            rw [hcf, if_neg (by simp)] at h
            exact Event.noConfusion h fun _ h => S3Op.noConfusion h

/-- Witness for the amended claim C2: a known-size 24-byte file is a
single-part `PutObject`; a known-size file one byte over the chunk
size is not; a 24-byte stream calls `CreateMultipartUpload`. -/
theorem claim_C2_singlePartCriterion_witness :
    ((nextChunk (Source.readerAt 24) 0).2 = true ↔ 24 ≤ copyChunkBytes) ∧
    uploadTrace (Source.readerAt 24) allGoodUploadEnv =
      [Event.mk .working (.putObject (nextChunk (Source.readerAt 24) 0).1)] ∧
    Event.mk .working (.createMultipartUpload true) ∈
      uploadTrace (Source.streaming 24) allGoodUploadEnv :=
  ⟨claim_C2_singlePartCriterion.1 24,
    (claim_C2_singlePartCriterion.2.2.1 (Source.readerAt 24) allGoodUploadEnv
      (by decide)).2 rfl,
    (claim_C2_singlePartCriterion.2.2.2 (Source.streaming 24) allGoodUploadEnv
      (by decide)).1⟩

/-- Counterexample to claim C7: an empty streaming source (0 bytes on
standard input) is not uploaded with a single-part `PutObject`: the
engine calls `CreateMultipartUpload` and emits one `UploadPart` whose
body has 0 bytes. -/
theorem claim_C7_counterexample :
    uploadTrace (Source.streaming 0) allGoodUploadEnv =
      [⟨.working, .createMultipartUpload true⟩,
       ⟨.working, .uploadPart mpuID 1 0⟩,
       ⟨.cleanup, .completeMultipartUpload mpuID [(1, "etag-1")]⟩] ∧
    (∀ n, Event.mk .working (.putObject n) ∉
      uploadTrace (Source.streaming 0) allGoodUploadEnv) := by
  have htr : uploadTrace (Source.streaming 0) allGoodUploadEnv =
      [⟨.working, .createMultipartUpload true⟩,
       ⟨.working, .uploadPart mpuID 1 0⟩,
       ⟨.cleanup, .completeMultipartUpload mpuID [(1, "etag-1")]⟩] := by decide
  refine ⟨htr, ?_⟩
  intro n
  rw [htr]
  intro hmem
  rcases List.mem_cons.mp hmem with h | h
  · exact Event.noConfusion h fun _ h => S3Op.noConfusion h
  rcases List.mem_cons.mp h with h | h
  · exact Event.noConfusion h fun _ h => S3Op.noConfusion h
  rcases List.mem_singleton.mp h with h
  exact Event.noConfusion h fun _ h => S3Op.noConfusion h

/-- Claim C7 amended: an empty known-size source is created with a
single-part `PutObject` with an empty body and no multipart upload;
known-size sources never emit a 0-byte `UploadPart`, and neither do
non-empty streaming sources; but the empty streaming source initiates
a multipart upload and emits exactly one `UploadPart` with a 0-byte
body (see the counterexample). -/
theorem claim_C7_emptySource :
    (∀ env : UploadEnv, env.acquire 0 = true →
      uploadTrace (Source.readerAt 0) env = [Event.mk .working (.putObject 0)]) ∧
    (∀ (env : UploadEnv) (ok : Bool),
      Event.mk .working (.createMultipartUpload ok) ∉ uploadTrace (Source.readerAt 0) env) ∧
    (∀ (size : Nat) (env : UploadEnv) (uid : String) (num sz : Nat),
      Event.mk .working (.uploadPart uid num sz) ∈ uploadTrace (Source.readerAt size) env →
        0 < sz) ∧
    (∀ (size : Nat) (env : UploadEnv) (uid : String) (num sz : Nat), 0 < size →
      Event.mk .working (.uploadPart uid num sz) ∈ uploadTrace (Source.streaming size) env →
        0 < sz) ∧
    (∀ env : UploadEnv, env.createOk = true → env.acquire 0 = true →
      Event.mk .working (.uploadPart mpuID 1 0) ∈ uploadTrace (Source.streaming 0) env) := by
  have hpartpos : ∀ (src : Source) (env : UploadEnv) (uid : String) (num sz : Nat),
      0 < (nextChunk src 0).1 →
      Event.mk .working (.uploadPart uid num sz) ∈ uploadTrace src env → 0 < sz := by
    intro src env uid num sz hpos hmem
    unfold uploadTrace at hmem
    by_cases hfst : (nextChunk src 0).2 = true
    · rw [if_pos hfst] at hmem
      cases hacq : env.acquire 0 with
      | true => rw [hacq, if_pos rfl] at hmem; simp at hmem
      | false => rw [hacq] at hmem; rw [if_neg (by simp)] at hmem; simp at hmem
    · rw [if_neg hfst] at hmem
      rcases List.mem_cons.mp hmem with h | h
      · exact absurd h (by simp)
      cases hok : env.createOk with
      | false => rw [hok] at h; simp at h
      | true =>
        rw [hok, if_pos rfl] at h
        rcases List.mem_append.mp h with h | h
        · rcases List.mem_map.mp h with ⟨t, htmem, ht⟩
          obtain ⟨_, hop⟩ := Event.mk.inj ht
          obtain ⟨_, _, h3⟩ := S3Op.uploadPart.inj hop
          have := uploadLoop_sizes_pos src env (uploadFuel src) 1
            (nextChunk src 0).1 0 (nextChunk src 0).1 false hpos t htmem
          omega
        · rcases List.mem_singleton.mp h with h
          cases hcf : env.cancelledAtFinalize with
          | true =>
            rw [hcf, if_pos rfl] at h
            exact Event.noConfusion h fun _ h => S3Op.noConfusion h
          | false =>
            rw [hcf, if_neg (by simp)] at h
            exact Event.noConfusion h fun _ h => S3Op.noConfusion h
  refine ⟨?_, ?_, ?_, ?_, ?_⟩
  · intro env hacq
    unfold uploadTrace
    rw [if_pos (by simp [nextChunk, copyChunkBytes]), if_pos hacq]
    rfl
  · intro env ok hmem
    unfold uploadTrace at hmem
    rw [if_pos (by simp [nextChunk, copyChunkBytes])] at hmem
    cases hacq : env.acquire 0 with
    | true => rw [hacq, if_pos rfl] at hmem; simp at hmem
    | false => rw [hacq] at hmem; rw [if_neg (by simp)] at hmem; simp at hmem
  · intro size env uid num sz hmem
    by_cases hle : size ≤ copyChunkBytes
    · -- the single-part branch carries no UploadPart event at all
      unfold uploadTrace at hmem
      rw [if_pos (by simp [nextChunk, Nat.sub_zero, hle])] at hmem
      cases hacq : env.acquire 0 with
      | true => rw [hacq, if_pos rfl] at hmem; simp at hmem
      | false => rw [hacq] at hmem; rw [if_neg (by simp)] at hmem; simp at hmem
    · refine hpartpos (Source.readerAt size) env uid num sz ?_ hmem
      simp only [nextChunk, Nat.sub_zero]
      rw [if_neg hle]
      simp only [copyChunkBytes]
      omega
  · intro size env uid num sz hsz hmem
    refine hpartpos (Source.streaming size) env uid num sz ?_ hmem
    simp only [nextChunk, Nat.sub_zero]
    simp only [copyChunkBytes]
    omega
  · intro env hok hacq
    have hfirst : nextChunk (Source.streaming 0) 0 = (0, false) := by
      simp [nextChunk]
    have hdp : dispatchedParts (Source.streaming 0) env = [(1, 0)] := by
      unfold dispatchedParts
      rw [hfirst]
      show uploadLoop (Source.streaming 0) env 2 1 0 0 0 false = [(1, 0)]
      unfold uploadLoop
      rw [if_neg (by simp [hacq])]
      simp [nextChunk]
    unfold uploadTrace
    rw [if_neg (by rw [hfirst]; simp), hok, if_pos rfl]
    refine List.mem_cons_of_mem _ (List.mem_append_left _ ?_)
    refine List.mem_map.mpr ⟨(1, 0), ?_, rfl⟩
    rw [hdp]
    exact List.mem_singleton.mpr rfl

/-- Witness for the amended claim C7 at concrete inputs: the empty
known-size source, a known-size chunk-and-a-byte source (hypothesis of
the positivity conjunct), a 24-byte stream, and the empty stream. -/
theorem claim_C7_emptySource_witness :
    uploadTrace (Source.readerAt 0) allGoodUploadEnv =
      [Event.mk .working (.putObject 0)] ∧
    (Event.mk .working (.uploadPart mpuID 1 24) ∈
        uploadTrace (Source.streaming 24) allGoodUploadEnv → 0 < 24) ∧
    Event.mk .working (.uploadPart mpuID 1 0) ∈
      uploadTrace (Source.streaming 0) allGoodUploadEnv :=
  ⟨claim_C7_emptySource.1 allGoodUploadEnv rfl,
    claim_C7_emptySource.2.2.2.1 24 allGoodUploadEnv mpuID 1 24 (by decide),
    claim_C7_emptySource.2.2.2.2 allGoodUploadEnv rfl rfl⟩

/-- Etag naming used by the claim C5 witnesses. -/
def witnessEtagF : Nat → String := fun n => "etag-" ++ toString n

/-- An upload environment whose parts arrived out of order. -/
def outOfOrderUploadEnv : UploadEnv where
  acquire := fun _ => true
  createOk := true
  arrival := [(2, "etag-2"), (1, "etag-1")]
  cancelledAtFinalize := false

/-- A copy environment for a source one byte above the single-copy
limit, whose completed-parts list holds all its parts. -/
def bigCopyEnv : CopyEnv where
  acquire := fun _ => true
  headOk := true
  createOk := true
  arrival := canonicalParts 1 (numCopyParts (maxCopyObjectBytes + 1)) witnessEtagF
  cancelledAtFinalize := false

/-- Claim C5: whenever a `CompleteMultipartUpload` is issued (upload or
copy pipeline) and the completed-parts list gathered at the barrier is
a permutation of the dispatched part numbers paired with their etags,
the parts list sent to complete is exactly the canonical list: part
numbers contiguous from 1 to the number of dispatched parts, in
strictly ascending order, each paired with its own etag. -/
theorem claim_C5_completedPartsSorted :
    (∀ (src : Source) (env : UploadEnv) (etagF : Nat → String),
      env.arrival.Perm
        ((dispatchedParts src env).map (fun p => (p.1, etagF p.1))) →
      ∀ ps, Event.mk .cleanup (.completeMultipartUpload mpuID ps) ∈ uploadTrace src env →
        ps = canonicalParts 1 (dispatchedParts src env).length etagF ∧
        ps.map Prod.fst = List.range' 1 (dispatchedParts src env).length ∧
        ps.Pairwise (fun a b => a.1 < b.1)) ∧
    (∀ (size : Nat) (env : CopyEnv) (etagF : Nat → String),
      env.arrival.Perm
        ((copyDispatched size env).map (fun t => (t.1, etagF t.1))) →
      ∀ ps, Event.mk .cleanup (.completeMultipartUpload mpuID ps) ∈ copyTrace size env →
        ps = canonicalParts 1 (copyDispatched size env).length etagF ∧
        ps.map Prod.fst = List.range' 1 (copyDispatched size env).length ∧
        ps.Pairwise (fun a b => a.1 < b.1)) := by
  constructor
  · intro src env etagF harr ps hmem
    have hN : (dispatchedParts src env).map Prod.fst =
        List.range' 1 (dispatchedParts src env).length :=
      uploadLoop_map_fst src env (uploadFuel src) 1 (nextChunk src 0).1 0
        (nextChunk src 0).1 false
    have hpair : (dispatchedParts src env).map (fun p => (p.1, etagF p.1)) =
        canonicalParts 1 (dispatchedParts src env).length etagF := by
      have hcomp : (fun p : Nat × Nat => (p.1, etagF p.1)) =
          ((fun j : Nat => (j, etagF j)) ∘ Prod.fst) := rfl
      rw [hcomp, ← List.map_map, hN]
      rfl
    -- the only complete event in the trace carries the sorted arrival list
    have hps : ps = sortParts env.arrival := by
      unfold uploadTrace at hmem
      by_cases hfst : (nextChunk src 0).2 = true
      · rw [if_pos hfst] at hmem
        cases hacq : env.acquire 0 with
        | true => rw [hacq, if_pos rfl] at hmem; simp at hmem
        | false => rw [hacq] at hmem; rw [if_neg (by simp)] at hmem; simp at hmem
      · rw [if_neg hfst] at hmem
        rcases List.mem_cons.mp hmem with h | h
        · exact absurd h (by simp)
        cases hok : env.createOk with
        | false => rw [hok] at h; simp at h
        | true =>
          rw [hok, if_pos rfl] at h
          rcases List.mem_append.mp h with h | h
          · rcases List.mem_map.mp h with ⟨t, _, ht⟩
            exact absurd ht (by simp)
          · rcases List.mem_singleton.mp h with h
            cases hcf : env.cancelledAtFinalize with
            | true =>
              rw [hcf, if_pos rfl] at h
              exact Event.noConfusion h fun _ h => S3Op.noConfusion h
            | false =>
              rw [hcf, if_neg (by simp)] at h
              obtain ⟨_, hop⟩ := Event.mk.inj h
              obtain ⟨_, hps⟩ := S3Op.completeMultipartUpload.inj hop
              exact hps
    have hsorted := sortParts_of_perm_canonical 1
      (dispatchedParts src env).length etagF env.arrival (hpair ▸ harr)
    refine ⟨hps ▸ hsorted, ?_, ?_⟩
    · rw [hps, hsorted]
      exact canonicalParts_map_fst _ _ _
    · rw [hps, hsorted]
      exact canonicalParts_pairwise_lt _ _ _
  · intro size env etagF harr ps hmem
    have hN : (copyDispatched size env).map (fun t => t.1) =
        List.range' 1 (copyDispatched size env).length :=
      copyLoop_map_fst size env (copyFuel size) 1 0 0
    have hpair : (copyDispatched size env).map (fun t => (t.1, etagF t.1)) =
        canonicalParts 1 (copyDispatched size env).length etagF := by
      have hcomp : (fun t : Nat × Nat × Nat => (t.1, etagF t.1)) =
          ((fun j : Nat => (j, etagF j)) ∘ (fun t : Nat × Nat × Nat => t.1)) := rfl
      rw [hcomp, ← List.map_map, hN]
      rfl
    have hps : ps = sortParts env.arrival := by
      unfold copyTrace at hmem
      by_cases hhf : env.headOk = false
      · rw [if_pos hhf] at hmem
        rcases List.mem_cons.mp hmem with h | h
        · exact absurd h (by simp)
        · simp at h
      · rw [if_neg hhf] at hmem
        by_cases hle : size ≤ maxCopyObjectBytes
        · rw [if_pos hle] at hmem
          rcases List.mem_cons.mp hmem with h | h
          · exact absurd h (by simp)
          · cases hacq : env.acquire 0 with
            | true => rw [hacq, if_pos rfl] at h; simp at h
            | false => rw [hacq] at h; rw [if_neg (by simp)] at h; simp at h
        · rw [if_neg hle] at hmem
          rcases List.mem_cons.mp hmem with h | h
          · exact absurd h (by simp)
          rcases List.mem_cons.mp h with h | h
          · exact absurd h (by simp)
          cases hok : env.createOk with
          | false => rw [hok] at h; simp at h
          | true =>
            rw [hok, if_pos rfl] at h
            rcases List.mem_append.mp h with h | h
            · rcases List.mem_map.mp h with ⟨t, _, ht⟩
              exact absurd ht (by simp)
            · rcases List.mem_singleton.mp h with h
              cases hcf : env.cancelledAtFinalize with
              | true =>
                rw [hcf, if_pos rfl] at h
                exact Event.noConfusion h fun _ h => S3Op.noConfusion h
              | false =>
                rw [hcf, if_neg (by simp)] at h
                obtain ⟨_, hop⟩ := Event.mk.inj h
                obtain ⟨_, hps⟩ := S3Op.completeMultipartUpload.inj hop
                exact hps
    have hsorted := sortParts_of_perm_canonical 1
      (copyDispatched size env).length etagF env.arrival (hpair ▸ harr)
    refine ⟨hps ▸ hsorted, ?_, ?_⟩
    · rw [hps, hsorted]
      exact canonicalParts_map_fst _ _ _
    · rw [hps, hsorted]
      exact canonicalParts_pairwise_lt _ _ _

/-- Witness for claim C5: an upload of one chunk plus one byte whose
two parts arrived out of order, and a copy one byte above the
single-copy limit with all parts arrived. -/
theorem claim_C5_completedPartsSorted_witness :
    (outOfOrderUploadEnv.arrival.Perm
      ((dispatchedParts (Source.readerAt (copyChunkBytes + 1)) outOfOrderUploadEnv).map
        (fun p => (p.1, witnessEtagF p.1))) ∧
     (∀ ps, Event.mk .cleanup (.completeMultipartUpload mpuID ps) ∈
        uploadTrace (Source.readerAt (copyChunkBytes + 1)) outOfOrderUploadEnv →
        ps = canonicalParts 1
          (dispatchedParts (Source.readerAt (copyChunkBytes + 1)) outOfOrderUploadEnv).length
          witnessEtagF ∧
        ps.map Prod.fst = List.range' 1
          (dispatchedParts (Source.readerAt (copyChunkBytes + 1)) outOfOrderUploadEnv).length ∧
        ps.Pairwise (fun a b => a.1 < b.1))) ∧
    (bigCopyEnv.arrival.Perm
      ((copyDispatched (maxCopyObjectBytes + 1) bigCopyEnv).map
        (fun t => (t.1, witnessEtagF t.1))) ∧
     (∀ ps, Event.mk .cleanup (.completeMultipartUpload mpuID ps) ∈
        copyTrace (maxCopyObjectBytes + 1) bigCopyEnv →
        ps = canonicalParts 1 (copyDispatched (maxCopyObjectBytes + 1) bigCopyEnv).length
          witnessEtagF ∧
        ps.map Prod.fst =
          List.range' 1 (copyDispatched (maxCopyObjectBytes + 1) bigCopyEnv).length ∧
        ps.Pairwise (fun a b => a.1 < b.1))) := by
  have hupload : outOfOrderUploadEnv.arrival.Perm
      ((dispatchedParts (Source.readerAt (copyChunkBytes + 1)) outOfOrderUploadEnv).map
        (fun p => (p.1, witnessEtagF p.1))) := by decide
  have hcopymap : (copyDispatched (maxCopyObjectBytes + 1) bigCopyEnv).map
      (fun t => (t.1, witnessEtagF t.1)) =
      canonicalParts 1 (numCopyParts (maxCopyObjectBytes + 1)) witnessEtagF := by
    rw [copyDispatched_eq_of_all_acquire (maxCopyObjectBytes + 1) bigCopyEnv
      (fun _ => rfl), List.map_map]
    rfl
  have hcopy : bigCopyEnv.arrival.Perm
      ((copyDispatched (maxCopyObjectBytes + 1) bigCopyEnv).map
        (fun t => (t.1, witnessEtagF t.1))) := by
    rw [hcopymap]
    exact List.Perm.refl _
  exact ⟨⟨hupload, claim_C5_completedPartsSorted.1
      (Source.readerAt (copyChunkBytes + 1)) outOfOrderUploadEnv witnessEtagF hupload⟩,
    ⟨hcopy, claim_C5_completedPartsSorted.2
      (maxCopyObjectBytes + 1) bigCopyEnv witnessEtagF hcopy⟩⟩

/-- Finalization events: the two calls that settle a multipart
upload. -/
def isFinalizeEvent (e : Event) : Bool :=
  match e.op with
  | .completeMultipartUpload _ _ => true
  | .abortMultipartUpload _ => true
  | _ => false

/-- Claim C1: for every object whose `CreateMultipartUpload` returned
success, the trace contains exactly one finalization event; it is
`AbortMultipartUpload` when the working context was cancelled by the
time all dispatched parts finished, `CompleteMultipartUpload`
otherwise, and it is issued on the cleanup context. This holds for
every schedule, in both the upload and the copy pipeline. -/
theorem claim_C1_finalizeExactlyOnce :
    (∀ (src : Source) (env : UploadEnv),
      Event.mk .working (.createMultipartUpload true) ∈ uploadTrace src env →
      (uploadTrace src env).countP isFinalizeEvent = 1 ∧
      (env.cancelledAtFinalize = true →
        Event.mk .cleanup (.abortMultipartUpload mpuID) ∈ uploadTrace src env) ∧
      (env.cancelledAtFinalize = false →
        Event.mk .cleanup (.completeMultipartUpload mpuID (sortParts env.arrival)) ∈
          uploadTrace src env) ∧
      (∀ e ∈ uploadTrace src env, isFinalizeEvent e = true → e.ctx = Ctx.cleanup)) ∧
    (∀ (size : Nat) (env : CopyEnv),
      Event.mk .working (.createMultipartUpload true) ∈ copyTrace size env →
      (copyTrace size env).countP isFinalizeEvent = 1 ∧
      (env.cancelledAtFinalize = true →
        Event.mk .cleanup (.abortMultipartUpload mpuID) ∈ copyTrace size env) ∧
      (env.cancelledAtFinalize = false →
        Event.mk .cleanup (.completeMultipartUpload mpuID (sortParts env.arrival)) ∈
          copyTrace size env) ∧
      (∀ e ∈ copyTrace size env, isFinalizeEvent e = true → e.ctx = Ctx.cleanup)) := by
  constructor
  · intro src env hmem
    have hfst : (nextChunk src 0).2 = false := by
      by_contra hx
      have h2 : (nextChunk src 0).2 = true := by simpa using hx
      unfold uploadTrace at hmem
      rw [if_pos h2] at hmem
      cases hacq : env.acquire 0 with
      | true => rw [hacq, if_pos rfl] at hmem; simp at hmem
      | false => rw [hacq] at hmem; rw [if_neg (by simp)] at hmem; simp at hmem
    have hok : env.createOk = true := by
      by_contra hx
      have h2 : env.createOk = false := by simpa using hx
      unfold uploadTrace at hmem
      rw [if_neg (by simp [hfst]), h2] at hmem
      simp at hmem
    have htr : uploadTrace src env =
        Event.mk .working (.createMultipartUpload true) ::
          ((dispatchedParts src env).map
            (fun p => Event.mk .working (.uploadPart mpuID p.1 p.2)) ++
          [if env.cancelledAtFinalize then
              Event.mk .cleanup (.abortMultipartUpload mpuID)
            else
              Event.mk .cleanup (.completeMultipartUpload mpuID (sortParts env.arrival))]) := by
      unfold uploadTrace
      rw [if_neg (by simp [hfst]), hok, if_pos rfl]
    refine ⟨?_, ?_, ?_, ?_⟩
    · rw [htr, List.countP_cons, List.countP_append]
      have hparts : ((dispatchedParts src env).map
          (fun p => Event.mk .working (.uploadPart mpuID p.1 p.2))).countP
            isFinalizeEvent = 0 := by
        rw [List.countP_eq_zero]
        intro e he
        rcases List.mem_map.mp he with ⟨p, _, hp⟩
        rw [← hp]
        simp [isFinalizeEvent]
      rw [hparts]
      cases hcf : env.cancelledAtFinalize with
      | true => rfl
      | false => rfl
    · intro hcf
      rw [htr, hcf]
      refine List.mem_cons_of_mem _ (List.mem_append_right _ ?_)
      rw [if_pos rfl]
      exact List.mem_singleton.mpr rfl
    · intro hcf
      rw [htr, hcf]
      refine List.mem_cons_of_mem _ (List.mem_append_right _ ?_)
      rw [if_neg (by simp)]
      exact List.mem_singleton.mpr rfl
    · intro e he hfin
      rw [htr] at he
      rcases List.mem_cons.mp he with h | h
      · rw [h] at hfin; exact absurd hfin (by simp [isFinalizeEvent])
      rcases List.mem_append.mp h with h | h
      · rcases List.mem_map.mp h with ⟨p, _, hp⟩
        rw [← hp] at hfin
        exact absurd hfin (by simp [isFinalizeEvent])
      · rcases List.mem_singleton.mp h with h
        cases hcf : env.cancelledAtFinalize with
        | true => rw [hcf, if_pos rfl] at h; rw [h]
        | false => rw [hcf, if_neg (by simp)] at h; rw [h]
  · intro size env hmem
    have hhd : ¬ env.headOk = false := by
      intro hx
      unfold copyTrace at hmem
      rw [if_pos hx] at hmem
      rcases List.mem_cons.mp hmem with h | h
      · exact absurd h (by simp)
      · simp at h
    have hgt : ¬ size ≤ maxCopyObjectBytes := by
      intro hx
      unfold copyTrace at hmem
      rw [if_neg hhd, if_pos hx] at hmem
      rcases List.mem_cons.mp hmem with h | h
      · exact absurd h (by simp)
      · cases hacq : env.acquire 0 with
        | true => rw [hacq, if_pos rfl] at h; simp at h
        | false => rw [hacq] at h; rw [if_neg (by simp)] at h; simp at h
    have hok : env.createOk = true := by
      by_contra hx
      have h2 : env.createOk = false := by simpa using hx
      unfold copyTrace at hmem
      rw [if_neg hhd, if_neg hgt, h2] at hmem
      rcases List.mem_cons.mp hmem with h | h
      · exact absurd h (by simp)
      · simp at h
    have htr : copyTrace size env =
        Event.mk .working (.headObject env.headOk) ::
          Event.mk .working (.createMultipartUpload true) ::
          ((copyDispatched size env).map
            (fun t => Event.mk .working (.uploadPartCopy mpuID t.1 (rangeHeader t.2.1 t.2.2))) ++
          [if env.cancelledAtFinalize then
              Event.mk .cleanup (.abortMultipartUpload mpuID)
            else
              Event.mk .cleanup (.completeMultipartUpload mpuID (sortParts env.arrival))]) := by
      unfold copyTrace
      rw [if_neg hhd, if_neg hgt, hok, if_pos rfl]
    refine ⟨?_, ?_, ?_, ?_⟩
    · rw [htr, List.countP_cons, List.countP_cons, List.countP_append]
      have hparts : ((copyDispatched size env).map
          (fun t => Event.mk .working (.uploadPartCopy mpuID t.1 (rangeHeader t.2.1 t.2.2)))).countP
            isFinalizeEvent = 0 := by
        rw [List.countP_eq_zero]
        intro e he
        rcases List.mem_map.mp he with ⟨t, _, ht⟩
        rw [← ht]
        simp [isFinalizeEvent]
      rw [hparts]
      cases hcf : env.cancelledAtFinalize with
      | true => rfl
      | false => rfl
    · intro hcf
      rw [htr, hcf]
      refine List.mem_cons_of_mem _ (List.mem_cons_of_mem _
        (List.mem_append_right _ ?_))
      rw [if_pos rfl]
      exact List.mem_singleton.mpr rfl
    · intro hcf
      rw [htr, hcf]
      refine List.mem_cons_of_mem _ (List.mem_cons_of_mem _
        (List.mem_append_right _ ?_))
      rw [if_neg (by simp)]
      exact List.mem_singleton.mpr rfl
    · intro e he hfin
      rw [htr] at he
      rcases List.mem_cons.mp he with h | h
      · rw [h] at hfin; exact absurd hfin (by simp [isFinalizeEvent])
      rcases List.mem_cons.mp h with h | h
      · rw [h] at hfin; exact absurd hfin (by simp [isFinalizeEvent])
      rcases List.mem_append.mp h with h | h
      · rcases List.mem_map.mp h with ⟨t, _, ht⟩
        rw [← ht] at hfin
        exact absurd hfin (by simp [isFinalizeEvent])
      · rcases List.mem_singleton.mp h with h
        cases hcf : env.cancelledAtFinalize with
        | true => rw [hcf, if_pos rfl] at h; rw [h]
        | false => rw [hcf, if_neg (by simp)] at h; rw [h]

/-- Witness for claim C1: a two-part upload and a copy one byte above
the single-copy limit, with successful creates and no cancellation;
each trace has exactly one finalization event. -/
theorem claim_C1_finalizeExactlyOnce_witness :
    (Event.mk .working (.createMultipartUpload true) ∈
        uploadTrace (Source.readerAt (copyChunkBytes + 1)) allGoodUploadEnv ∧
      (uploadTrace (Source.readerAt (copyChunkBytes + 1)) allGoodUploadEnv).countP
        isFinalizeEvent = 1) ∧
    (Event.mk .working (.createMultipartUpload true) ∈
        copyTrace (maxCopyObjectBytes + 1) allGoodCopyEnv ∧
      (copyTrace (maxCopyObjectBytes + 1) allGoodCopyEnv).countP isFinalizeEvent = 1) := by
  have hu : Event.mk .working (.createMultipartUpload true) ∈
      uploadTrace (Source.readerAt (copyChunkBytes + 1)) allGoodUploadEnv := by decide
  have hc : Event.mk .working (.createMultipartUpload true) ∈
      copyTrace (maxCopyObjectBytes + 1) allGoodCopyEnv := by
    unfold copyTrace
    rw [if_neg (by decide), if_neg (by decide)]
    exact List.mem_cons_of_mem _ (List.mem_cons_self _ _)
  exact ⟨⟨hu, (claim_C1_finalizeExactlyOnce.1 _ allGoodUploadEnv hu).1⟩,
    ⟨hc, (claim_C1_finalizeExactlyOnce.2 _ allGoodCopyEnv hc).1⟩⟩

/-- One pool step keeps the number of held slots within capacity. -/
theorem poolStep_held_le (cap : Nat) (s s2 : PoolState) (e : PoolEvent)
    (h : poolStep cap s e = some s2) (hle : s.held ≤ cap) : s2.held ≤ cap := by
  cases e with
  | cancel =>
    simp only [poolStep] at h
    obtain rfl : ({ s with cancelled := true } : PoolState) = s2 := Option.some.inj h
    simpa [PoolState.held] using hle
  | acquireTrue =>
    simp only [poolStep] at h
    by_cases hc : s.held < cap
    · rw [if_pos hc] at h
      obtain rfl := Option.some.inj h
      simp only [PoolState.held] at *
      omega
    · rw [if_neg hc] at h
      exact Option.noConfusion h
  | acquireFalse =>
    simp only [poolStep] at h
    by_cases hc : s.cancelled = true
    · rw [if_pos hc] at h
      obtain rfl := Option.some.inj h
      exact hle
    · rw [if_neg hc] at h
      exact Option.noConfusion h
  | startOp =>
    simp only [poolStep] at h
    by_cases hc : 0 < s.idleHolders
    · rw [if_pos hc] at h
      obtain rfl := Option.some.inj h
      simp only [PoolState.held] at *
      omega
    · rw [if_neg hc] at h
      exact Option.noConfusion h
  | endOp =>
    simp only [poolStep] at h
    by_cases hc : 0 < s.running
    · rw [if_pos hc] at h
      obtain rfl := Option.some.inj h
      simp only [PoolState.held] at *
      omega
    · rw [if_neg hc] at h
      exact Option.noConfusion h
  | release =>
    simp only [poolStep] at h
    by_cases hc : 0 < s.idleHolders
    · rw [if_pos hc] at h
      obtain rfl := Option.some.inj h
      simp only [PoolState.held] at *
      omega
    · rw [if_neg hc] at h
      exact Option.noConfusion h

/-- The held-slots bound is an invariant of every pool run. -/
theorem runPool_held_le (cap : Nat) :
    ∀ (tr : List PoolEvent) (s0 s : PoolState), s0.held ≤ cap →
      runPool cap s0 tr = some s → s.held ≤ cap := by
  intro tr
  induction tr with
  | nil =>
    intro s0 s h0 h
    obtain rfl := Option.some.inj h
    exact h0
  | cons e tr ih =>
    intro s0 s h0 h
    unfold runPool at h
    cases hstep : poolStep cap s0 e with
    | none => rw [hstep] at h; exact Option.noConfusion h
    | some s1 =>
      rw [hstep] at h
      exact ih s1 s (poolStep_held_le cap s0 s1 e hstep h0) h

/-- Counterexample to claim C8: the trace cancel-then-acquire is a
valid pool run in which `acquire` returns true after the working
context has been cancelled: `acquire` is a Go select between the
closed Done channel and the semaphore send, and when both are ready
the choice is random, so cancellation does not force a false return. -/
theorem claim_C8_counterexample :
    (runPool 4 PoolState.init [PoolEvent.cancel, PoolEvent.acquireTrue]).isSome = true ∧
    noAcquireTrueAfterCancel [PoolEvent.cancel, PoolEvent.acquireTrue] = false := by
  decide

/-- Claim C8 amended: the configured parallelism defaults to 4 for
zero or negative values; in every reachable pool state at most that
many slots are held (so at most that many protocol operations are in
flight through the pool); `acquire` returns false only when the
working context is already cancelled; and a task whose `acquire`
returned false performs no protocol operation (single-part upload and
copy shown: their traces contain no store call beyond the already-done
`HeadObject`). `acquire` may however still return true after
cancellation (see the counterexample). -/
theorem claim_C8_poolBound :
    (∀ p : Int, p ≤ 0 → effectiveParallel p = 4) ∧
    (∀ (cap : Nat) (tr : List PoolEvent) (s : PoolState),
      runPool cap PoolState.init tr = some s →
      s.held ≤ cap ∧ s.running ≤ cap) ∧
    (∀ (cap : Nat) (s s2 : PoolState),
      poolStep cap s .acquireFalse = some s2 → s.cancelled = true ∧ s2 = s) ∧
    (∀ (src : Source) (env : UploadEnv), (nextChunk src 0).2 = true →
      env.acquire 0 = false → uploadTrace src env = []) ∧
    (∀ (size : Nat) (env : CopyEnv), env.headOk = true → size ≤ maxCopyObjectBytes →
      env.acquire 0 = false →
      copyTrace size env = [Event.mk .working (.headObject true)]) := by
  refine ⟨?_, ?_, ?_, ?_, ?_⟩
  · intro p hp
    unfold effectiveParallel
    rw [if_pos hp]
  · intro cap tr s h
    have hheld := runPool_held_le cap tr PoolState.init s (Nat.zero_le cap) h
    refine ⟨hheld, ?_⟩
    have : s.running ≤ s.held := by
      simp only [PoolState.held]
      omega
    omega
  · intro cap s s2 h
    simp only [poolStep] at h
    by_cases hc : s.cancelled = true
    · rw [if_pos hc] at h
      exact ⟨hc, (Option.some.inj h).symm⟩
    · rw [if_neg hc] at h
      exact Option.noConfusion h
  · intro src env hfst hacq
    unfold uploadTrace
    rw [if_pos hfst, hacq]
    rw [if_neg (by simp)]
  · intro size env hhead hle hacq
    unfold copyTrace
    rw [hhead, if_neg (by simp), if_pos hle, hacq, if_neg (by simp)]

/-- Upload environment whose semaphore always refuses. -/
def deniedUploadEnv : UploadEnv where
  acquire := fun _ => false
  createOk := true
  arrival := []
  cancelledAtFinalize := true

/-- Copy environment whose semaphore always refuses. -/
def deniedCopyEnv : CopyEnv where
  acquire := fun _ => false
  headOk := true
  createOk := true
  arrival := []
  cancelledAtFinalize := true

/-- Witness for the amended claim C8 at concrete inputs: a negative
parallelism flag, a concrete two-event run, a concrete refused
acquire, and refused single-part pipelines. -/
theorem claim_C8_poolBound_witness :
    effectiveParallel (-3) = 4 ∧
    ((⟨false, 0, 1⟩ : PoolState).held ≤ 4 ∧ (⟨false, 0, 1⟩ : PoolState).running ≤ 4) ∧
    ((⟨true, 2, 0⟩ : PoolState).cancelled = true ∧
      (⟨true, 2, 0⟩ : PoolState) = (⟨true, 2, 0⟩ : PoolState)) ∧
    uploadTrace (Source.readerAt 24) deniedUploadEnv = [] ∧
    copyTrace 24 deniedCopyEnv = [Event.mk .working (.headObject true)] :=
  ⟨claim_C8_poolBound.1 (-3) (by decide),
    claim_C8_poolBound.2.1 4 [PoolEvent.acquireTrue, PoolEvent.startOp]
      ⟨false, 0, 1⟩ (by decide),
    claim_C8_poolBound.2.2.1 4 ⟨true, 2, 0⟩ ⟨true, 2, 0⟩ (by decide),
    claim_C8_poolBound.2.2.2.1 (Source.readerAt 24) deniedUploadEnv (by decide) rfl,
    claim_C8_poolBound.2.2.2.2 24 deniedCopyEnv rfl (by decide) rfl⟩

end S3cliMini
